import Mathlib

/-!
Formal model of the sota-gm-regions repository.

The repository has two Python source files:

* app.py — a Streamlit dashboard that loads a spreadsheet of SOTA summits,
  derives region columns from the SOTA reference string, lets the user remap
  each Area to one of six Scottish regions via sidebar select boxes, shows
  comparison tables and charts, and offers a CSV download of the updated data.
* summit-match.py — a one-off script that renames the columns of two sheets
  (Python strip()/capitalize()), performs a nearest-neighbour match from each
  byregion row to the closest gm-sota row by (Latitude, Longitude), attaches
  the matched Summitcode as a SOTA Ref column, and writes the sheet back.

This file shallowly embeds the data transformations of both scripts:
dataframes become lists of rows or lists of named columns, floating point
coordinates become rationals, pandas/scipy calls become the list functions
they compute, and the two regular expressions are implemented as scanning
functions over character lists.  Theorems at the end settle the claims.
-/

namespace SotaGm

/-! ### Python string primitives (ASCII fragment used by the scripts)

The column names and region codes handled by the scripts are ASCII, so the
ASCII case table is the relevant fragment of Python str.capitalize and of
string comparison (code-point lexicographic order, used by sorted()). -/

/-- ASCII uppercase/lowercase letter pairs. -/
def caseTable : List (Char × Char) :=
  [('A', 'a'), ('B', 'b'), ('C', 'c'), ('D', 'd'), ('E', 'e'), ('F', 'f'),
   ('G', 'g'), ('H', 'h'), ('I', 'i'), ('J', 'j'), ('K', 'k'), ('L', 'l'),
   ('M', 'm'), ('N', 'n'), ('O', 'o'), ('P', 'p'), ('Q', 'q'), ('R', 'r'),
   ('S', 's'), ('T', 't'), ('U', 'u'), ('V', 'v'), ('W', 'w'), ('X', 'x'),
   ('Y', 'y'), ('Z', 'z')]

/-- Lowercase an ASCII character, as Python str.lower does on ASCII input. -/
def pyToLower (c : Char) : Char := (caseTable.lookup c).getD c

/-- Uppercase an ASCII character, as Python str.upper does on ASCII input. -/
def pyToUpper (c : Char) : Char := ((caseTable.map Prod.swap).lookup c).getD c

/-- Python default whitespace characters stripped by str.strip(). -/
def pyIsSpace (c : Char) : Bool := [' ', '\t', '\n', '\x0b', '\x0c', '\r'].contains c

/-- Python str.strip(): drop leading and trailing whitespace. -/
def pyStrip (l : List Char) : List Char :=
  ((l.dropWhile pyIsSpace).reverse.dropWhile pyIsSpace).reverse

/-- Python str.capitalize(): first character uppercased, the rest lowercased. -/
def pyCapitalize : List Char → List Char
  | [] => []
  | c :: cs => pyToUpper c :: cs.map pyToLower

/-- Code-point lexicographic comparison of character lists; this is how
Python compares strings, and hence the order used by sorted(). -/
def charsLe : List Char → List Char → Bool
  | [], _ => true
  | _ :: _, [] => false
  | a :: as, b :: bs => if a < b then true else if b < a then false else charsLe as bs

/-- Python string order as a relation on Lean strings. -/
def strLe (a b : String) : Prop := charsLe a.toList b.toList = true

instance strLeDecidable : DecidableRel strLe := fun a b =>
  inferInstanceAs (Decidable (charsLe a.toList b.toList = true))

theorem charsLe_cons_iff (x y : Char) (xs ys : List Char) :
    charsLe (x :: xs) (y :: ys) = true ↔ x < y ∨ (x = y ∧ charsLe xs ys = true) := by
  simp only [charsLe]
  rcases lt_trichotomy x y with h | h | h
  · simp [h, asymm h, ne_of_lt h]
  · simp [h, lt_irrefl]
  · simp [h, asymm h, (ne_of_lt h).symm, not_lt_of_gt h]

theorem charsLe_trans :
    ∀ a b c : List Char, charsLe a b = true → charsLe b c = true → charsLe a c = true := by
  intro a
  induction a with
  | nil => intro b c _ _; rfl
  | cons x xs ih =>
    intro b c h1 h2
    cases b with
    | nil => simp [charsLe] at h1
    | cons y ys =>
      cases c with
      | nil => simp [charsLe] at h2
      | cons z zs =>
        rw [charsLe_cons_iff] at h1 h2 ⊢
        rcases h1 with h1 | ⟨rfl, h1⟩
        · rcases h2 with h2 | ⟨rfl, _⟩
          · exact Or.inl (lt_trans h1 h2)
          · exact Or.inl h1
        · rcases h2 with h2 | ⟨rfl, h2⟩
          · exact Or.inl h2
          · exact Or.inr ⟨rfl, ih ys zs h1 h2⟩

theorem charsLe_total (a b : List Char) :
    charsLe a b = true ∨ charsLe b a = true := by
  induction a generalizing b with
  | nil => exact Or.inl rfl
  | cons x xs ih =>
    cases b with
    | nil => exact Or.inr rfl
    | cons y ys =>
      rw [charsLe_cons_iff, charsLe_cons_iff]
      rcases lt_trichotomy x y with h | h | h
      · exact Or.inl (Or.inl h)
      · rcases ih ys with hy | hy
        · exact Or.inl (Or.inr ⟨h, hy⟩)
        · exact Or.inr (Or.inr ⟨h.symm, hy⟩)
      · exact Or.inr (Or.inl h)

instance strLeIsTrans : IsTrans String strLe :=
  ⟨fun a b c h1 h2 => charsLe_trans a.toList b.toList c.toList h1 h2⟩

instance strLeIsTotal : IsTotal String strLe :=
  ⟨fun a b => charsLe_total a.toList b.toList⟩

/-- Python sorted() on a list of strings. -/
def pySorted (l : List String) : List String := l.insertionSort strLe

theorem mem_pySorted {a : String} {l : List String} : a ∈ pySorted l ↔ a ∈ l :=
  List.mem_insertionSort strLe

theorem pySorted_sorted (l : List String) : (pySorted l).Pairwise strLe :=
  List.sorted_insertionSort strLe l

theorem pySorted_nodup {l : List String} (h : l.Nodup) : (pySorted l).Nodup :=
  ((List.perm_insertionSort strLe l).nodup_iff).mpr h

/-! ### The two region-extraction regular expressions of app.py

Line 16 of app.py derives the Original Region column with
pandas str.extract on the pattern GM/([A-Z]+)- and line 23 defines
extract_sota_region with re.search on the pattern /([A-Z]{2})-.
Both use first-match (re.search) semantics: candidate start positions are
tried left to right.  The character class [A-Z] is the set of ASCII
uppercase letters. -/

/-- Membership in the regex character class [A-Z]. -/
def isUpperAZ (c : Char) : Bool := decide ('A' ≤ c) && decide (c ≤ 'Z')

/-- Attempt to match /([A-Z]\x7b2\x7d)- at the start of the input; returns the
two captured letters on success. -/
def matchSlash2At : List Char → Option (Char × Char)
  | '/' :: c1 :: c2 :: '-' :: _ =>
      if isUpperAZ c1 && isUpperAZ c2 then some (c1, c2) else none
  | _ => none

/-- re.search for /([A-Z]\x7b2\x7d)-: try each start position left to right. -/
def searchSlash2 : List Char → Option (Char × Char)
  | [] => none
  | c :: rest =>
      match matchSlash2At (c :: rest) with
      | some r => some r
      | none => searchSlash2 rest

/-- The function extract_sota_region of app.py, lines 21-24: the captured
group of the first match of /([A-Z]\x7b2\x7d)-, or the empty string when the
pattern does not occur. -/
def extract_sota_region (s : String) : String :=
  match searchSlash2 s.toList with
  | some (c1, c2) => String.mk [c1, c2]
  | none => ""

/-- Attempt to match GM/([A-Z]+)- at the start of the input; returns the
captured group.  The greedy [A-Z]+ with the following literal - matches
exactly the maximal nonempty uppercase run when the character after that run
is a dash: shorter candidate runs are followed by an uppercase letter, never
by a dash, so backtracking cannot produce any other capture. -/
def matchGMAt : List Char → Option (List Char)
  | 'G' :: 'M' :: '/' :: rest =>
      let run := rest.takeWhile isUpperAZ
      if run ≠ [] ∧ (rest.dropWhile isUpperAZ).head? = some '-' then some run else none
  | _ => none

/-- re.search for GM/([A-Z]+)-: try each start position left to right.
This is the match pandas str.extract performs on line 16 of app.py. -/
def searchGM : List Char → Option (List Char)
  | [] => none
  | c :: rest =>
      match matchGMAt (c :: rest) with
      | some r => some r
      | none => searchGM rest

/-- The Original Region column value derived on line 16 of app.py;
str.extract yields a missing value (None here) when there is no match. -/
def extractOrigRegion (s : String) : Option String :=
  (searchGM s.toList).map String.mk

/-! ### The dataframe row model of app.py

A row of the byregion sheet as read on line 15 of app.py.  The SOTA Ref
column is a string on every row (summit-match.py attaches it to each row;
app.py applies re.search to it unconditionally, which requires a string).
Area, Area name and New gm region are object columns that may hold missing
values, modelled with Option.  Points is an integer column and the
coordinates are real numbers, modelled as rationals. -/

structure SummitRow where
  sotaRef : String
  hillName : String
  area : Option String
  areaName : Option String
  newGmRegion : Option String
  points : Int
  latitude : ℚ
  longitude : ℚ
  deriving DecidableEq

/-- The derived Original Region column (app.py line 16). -/
def origRegion (r : SummitRow) : Option String := extractOrigRegion r.sotaRef

/-- The derived Original SOTA region column (app.py line 26). -/
def origSotaRegion (r : SummitRow) : String := extract_sota_region r.sotaRef

/-! ### Sidebar region assignment (app.py lines 29-51)

The six fixed regions, the sorted list of distinct non-missing Area values,
and one select box per area.  A user interaction is a function choosing, for
each select-box key (the area code, line 47), an index into the option list.
List.dedup computes the distinct values of a column; its order differs from
pandas unique() (last kept rather than first), but every use below is either
sorted afterwards or consumed by key, so only the set of values matters. -/

/-- Line 34 of app.py. -/
def sotaRegions : List String := ["SS", "ES", "CS", "SI", "WS", "NS"]

/-- Line 35 of app.py: sorted distinct non-missing Area values. -/
def areaList (rows : List SummitRow) : List String :=
  pySorted (rows.filterMap (·.area)).dedup

/-- Line 40 of app.py: df.set_index applied to Area keeps, for a duplicated
area code, the last row; to_dict then maps the code to that row's Area name,
which may itself be missing. -/
def areaNameEntry (rows : List SummitRow) (a : String) : Option (Option String) :=
  (rows.reverse.find? (fun r => r.area == some a)).map (·.areaName)

/-- Line 43 and 46 of app.py: the select-box label.  A missing Area name
renders as the string nan in the f-string, and a code absent from the name
map falls back to the code itself. -/
def labelFor (rows : List SummitRow) (a : String) : String :=
  match areaNameEntry rows a with
  | some (some nm) => nm ++ " (" ++ a ++ ")"
  | some none => "nan" ++ " (" ++ a ++ ")"
  | none => a ++ " (" ++ a ++ ")"

/-- Lines 42-47 of app.py: the sidebar presents one select box per area in
area_list, every one with the same fixed option list sota_regions. -/
def sidebarControls (rows : List SummitRow) : List (String × List String) :=
  (areaList rows).map (fun a => (labelFor rows a, sotaRegions))

/-- The option returned by the select box keyed by area code a, for a user
interaction choosing option index choice a. -/
def chosenRegion (choice : String → Fin 6) (a : String) : String :=
  sotaRegions.get ⟨(choice a).val, (choice a).isLt⟩

/-- Lines 42-48 of app.py: the area_to_region dictionary, one entry per
area in area_list. -/
def areaToRegion (choice : String → Fin 6) (rows : List SummitRow) :
    List (String × String) :=
  (areaList rows).map (fun a => (a, chosenRegion choice a))

/-- Line 51 of app.py: Series.map with a dictionary sends a missing area and
an area absent from the dictionary to a missing value. -/
def assignedRegion (choice : String → Fin 6) (rows : List SummitRow)
    (r : SummitRow) : Option String :=
  r.area.bind (fun a => (areaToRegion choice rows).lookup a)

/-! ### Select-box default (app.py lines 44-47, claim C8) -/

/-- Series.mode(): the values of maximal multiplicity (missing values
dropped before this function is called), sorted ascending. -/
def pdMode (l : List String) : List String :=
  let m := (l.dedup.map (fun v => l.count v)).foldr max 0
  pySorted (l.dedup.filter (fun v => l.count v == m))

/-- The New gm region values (missing dropped) of the rows of one area:
df[df[Area] == area][New gm region] as consumed by mode(). -/
def areaNewGmValues (rows : List SummitRow) (a : String) : List String :=
  (rows.filter (fun r => r.area == some a)).filterMap (·.newGmRegion)

/-- Line 45 of app.py: the first mode when it exists and is one of the six
regions, and SS otherwise. -/
def defaultValue (rows : List SummitRow) (a : String) : String :=
  match pdMode (areaNewGmValues rows a) with
  | [] => "SS"
  | v :: _ => if v ∈ sotaRegions then v else "SS"

/-! ### CSV download (app.py lines 124-134, claim C4) -/

/-- Line 125 of app.py: the New gm region column is overwritten from the
sidebar mapping before the download is built. -/
def updateRow (choice : String → Fin 6) (rows : List SummitRow)
    (r : SummitRow) : SummitRow :=
  { r with newGmRegion := r.area.bind (fun a => (areaToRegion choice rows).lookup a) }

/-- Lines 125-128 of app.py: the dataframe whose row-wise serialization
df.to_csv is handed to st.download_button as the download payload. -/
def downloadRows (choice : String → Fin 6) (rows : List SummitRow) :
    List SummitRow :=
  rows.map (updateRow choice rows)

/-! ### Region comparison table (app.py lines 108-111, claims C5 and C6) -/

/-- The Original Region column with missing values dropped, as consumed by
value_counts on line 108. -/
def origRegionValues (rows : List SummitRow) : List String :=
  rows.filterMap origRegion

/-- The Assigned Region column with missing values dropped, as consumed by
value_counts on line 109. -/
def assignedValues (choice : String → Fin 6) (rows : List SummitRow) :
    List String :=
  rows.filterMap (assignedRegion choice rows)

/-- Series.value_counts as a key-to-count table: each distinct value paired
with its multiplicity.  Pandas orders the entries by descending count, but
the comparison table is read by region label, so only the mapping matters. -/
def valueCounts (l : List String) : List (String × ℕ) :=
  l.dedup.map (fun v => (v, l.count v))

/-- The row labels of the comparison table: pd.concat with axis 1 takes the
union of the two value_counts indices. -/
def comparisonIndex (choice : String → Fin 6) (rows : List SummitRow) :
    List String :=
  (origRegionValues rows).dedup ++
    ((assignedValues choice rows).dedup.filter
      (fun v => decide (v ∉ (origRegionValues rows).dedup)))

/-- The Original column of the comparison table at label r; a label absent
from the original value_counts is filled with integer 0 (line 110). -/
def originalEntry (rows : List SummitRow) (r : String) : ℕ :=
  ((valueCounts (origRegionValues rows)).lookup r).getD 0

/-- The New column of the comparison table at label r, filled with 0 when
absent (line 110). -/
def newEntry (choice : String → Fin 6) (rows : List SummitRow) (r : String) : ℕ :=
  ((valueCounts (assignedValues choice rows)).lookup r).getD 0

/-- The sum of the Original column over the comparison table. -/
def originalColumnSum (rows : List SummitRow) (choice : String → Fin 6) : ℕ :=
  ((comparisonIndex choice rows).map (originalEntry rows)).sum

/-- The sum of the New column over the comparison table. -/
def newColumnSum (rows : List SummitRow) (choice : String → Fin 6) : ℕ :=
  ((comparisonIndex choice rows).map (newEntry choice rows)).sum

/-! ### Colour map (app.py lines 53-65, claim C7)

The matplotlib colormap is third-party code: it is modelled as a parameter
mapping a level count and an index to an rgb triple, with the documented
property that every component lies in the unit interval.  Python int()
truncates toward zero. -/

/-- Python int() on a rational: truncation toward zero. -/
def pyInt (q : ℚ) : ℤ := if q < 0 then -(Int.floor (-q)) else Int.floor q

/-- One colour component scaled as on line 57: int(c * 255). -/
def scale255 (c : ℚ) : ℤ := pyInt (c * 255)

/-- Line 57: the first three components of cmap(i), scaled. -/
def colorTriple (rgb : ℚ × ℚ × ℚ) : List ℤ :=
  [scale255 rgb.1, scale255 rgb.2.1, scale255 rgb.2.2]

/-- The dictionary comprehension of line 57: value i of the enumeration is
paired with the scaled colour cmap(i). -/
def colorAssign (cmap : ℕ → ℕ → ℚ × ℚ × ℚ) (n : ℕ) :
    ℕ → List String → List (String × List ℤ)
  | _, [] => []
  | i, v :: vs => (v, colorTriple (cmap n i)) :: colorAssign cmap n (i + 1) vs

/-- The function make_color_map of app.py lines 54-57: sorted distinct
non-missing values, each mapped through the n-level colormap. -/
def make_color_map (cmap : ℕ → ℕ → ℚ × ℚ × ℚ) (values : List (Option String)) :
    List (String × List ℤ) :=
  let u := pySorted (values.filterMap id).dedup
  colorAssign cmap u.length 0 u

/-- The colour-by select box of line 31 offers the Area and the New gm
region columns. -/
inductive ColourBy where
  | area
  | newGmRegion
  deriving DecidableEq

/-- The value of the colour-by column in a row.  Line 64 reads the column
before line 125 overwrites it, so newGmRegion is the sheet's own column. -/
def colourByValue (cb : ColourBy) (r : SummitRow) : Option String :=
  match cb with
  | .area => r.area
  | .newGmRegion => r.newGmRegion

/-- Line 60 of app.py: the concatenation of Original Region, Assigned
Region and the colour-by column, missing dropped, distinct. -/
def combinedCategories (cb : ColourBy) (choice : String → Fin 6)
    (rows : List SummitRow) : List String :=
  ((rows.map origRegion ++ rows.map (assignedRegion choice rows) ++
      rows.map (colourByValue cb)).filterMap id).dedup

/-- Line 61 of app.py: the shared colour map. -/
def colorMapOf (cmap : ℕ → ℕ → ℚ × ℚ × ℚ) (cb : ColourBy)
    (choice : String → Fin 6) (rows : List SummitRow) : List (String × List ℤ) :=
  make_color_map cmap ((combinedCategories cb choice rows).map some)

/-- Line 64 of app.py: the Color column, the colour-by value looked up in
the shared colour map (missing when the value is missing or unmapped). -/
def rowColor (cmap : ℕ → ℕ → ℚ × ℚ × ℚ) (cb : ColourBy)
    (choice : String → Fin 6) (rows : List SummitRow) (r : SummitRow) :
    Option (List ℤ) :=
  (colourByValue cb r).bind (fun v => (colorMapOf cmap cb choice rows).lookup v)

/-! ### Proportional distribution table (app.py lines 137-156, claim C9)

The dataframe here is the one of line 125, whose New gm region column was
just rewritten from the sidebar mapping (downloadRows).  Line 137 groups by
(Original SOTA region, Points) and line 138 by (New gm region, Points);
groupby drops rows with a missing key, and unstack produces one column per
Points value observed among the grouped rows, filling absent combinations
with 0.  pd.concat of the two unstacked tables takes the union of their
column sets, introducing genuinely missing entries (NaN, modelled none) for
columns absent from one table; row sums and the later division skip them.
The index labels r (original) and r (new) are modelled as pairs of the
region and a tag, true for original: every region value is produced by
extract_sota_region, hence is the empty string or two uppercase letters and
never contains a space, so the formatted strings determine the pair. -/

/-- The rows grouped on line 138: those with a non-missing updated New gm
region. -/
def newGroupRows (choice : String → Fin 6) (rows : List SummitRow) :
    List SummitRow :=
  (downloadRows choice rows).filter (fun r => r.newGmRegion.isSome)

/-- The Points column set of the table grouped on line 137. -/
def origPointCols (choice : String → Fin 6) (rows : List SummitRow) : List Int :=
  ((downloadRows choice rows).map (·.points)).dedup

/-- The Points column set of the table grouped on line 138. -/
def newPointCols (choice : String → Fin 6) (rows : List SummitRow) : List Int :=
  ((newGroupRows choice rows).map (·.points)).dedup

/-- The union of the two column sets taken by pd.concat on line 144. -/
def allPointCols (choice : String → Fin 6) (rows : List SummitRow) : List Int :=
  origPointCols choice rows ++
    (newPointCols choice rows).filter (fun p => decide (p ∉ origPointCols choice rows))

/-- The index of the table of line 137: distinct Original SOTA region
values. -/
def origLabels (choice : String → Fin 6) (rows : List SummitRow) : List String :=
  ((downloadRows choice rows).map origSotaRegion).dedup

/-- The index of the table of line 138: distinct non-missing New gm region
values. -/
def newLabels (choice : String → Fin 6) (rows : List SummitRow) : List String :=
  ((newGroupRows choice rows).filterMap (·.newGmRegion)).dedup

/-- The group size for (Original SOTA region, Points) of line 137. -/
def origCount (choice : String → Fin 6) (rows : List SummitRow)
    (r : String) (p : Int) : ℕ :=
  (downloadRows choice rows).countP (fun x => origSotaRegion x == r && x.points == p)

/-- The group size for (New gm region, Points) of line 138. -/
def newCount (choice : String → Fin 6) (rows : List SummitRow)
    (r : String) (p : Int) : ℕ :=
  (downloadRows choice rows).countP (fun x => x.newGmRegion == some r && x.points == p)

/-- One row of the concatenated table of line 144, over the union column
set: a count where the column exists in the source table (0-filled by
unstack) and missing where pd.concat introduced NaN. -/
def combinedRowEntries (choice : String → Fin 6) (rows : List SummitRow) :
    String × Bool → List (Option ℕ)
  | (r, true) =>
      (allPointCols choice rows).map (fun p =>
        if p ∈ origPointCols choice rows then some (origCount choice rows r p) else none)
  | (r, false) =>
      (allPointCols choice rows).map (fun p =>
        if p ∈ newPointCols choice rows then some (newCount choice rows r p) else none)

/-- The row sum taken on line 156 as the normalization divisor; pandas sum
skips missing entries. -/
def rowDivisor (choice : String → Fin 6) (rows : List SummitRow)
    (lbl : String × Bool) : ℕ :=
  ((combinedRowEntries choice rows lbl).filterMap id).sum

/-- One row of percent_df on line 156: every present entry divided by the
row divisor; missing entries stay missing. -/
def percentRow (choice : String → Fin 6) (rows : List SummitRow)
    (lbl : String × Bool) : List (Option ℚ) :=
  (combinedRowEntries choice rows lbl).map
    (Option.map (fun n : ℕ => (n : ℚ) / (rowDivisor choice rows lbl : ℚ)))

/-- Lines 147-153 of app.py: for each region of the sorted distinct
Original SOTA region values, the original-tagged label when it is in the
combined index, then the new-tagged label when it is. -/
def orderedIndex (choice : String → Fin 6) (rows : List SummitRow) :
    List (String × Bool) :=
  (pySorted ((downloadRows choice rows).map origSotaRegion).dedup).flatMap
    (fun r =>
      (if r ∈ origLabels choice rows then [(r, true)] else []) ++
        (if r ∈ newLabels choice rows then [(r, false)] else []))

/-! ### summit-match.py: column renaming and sheet write-back (claim C2)

A sheet is a list of named columns.  Line 11 renames every column name by
Python strip().capitalize(), and line 25 assigns the SOTA Ref column, which
pandas replaces in place when a column of that name exists and appends
otherwise. -/

structure PyColumn where
  name : List Char
  values : List String
  deriving DecidableEq

/-- The column-name normalization of summit-match.py line 11. -/
def renameColumn (c : PyColumn) : PyColumn :=
  ⟨pyCapitalize (pyStrip c.name), c.values⟩

/-- summit-match.py line 11: rename applied to every column. -/
def renameColumns (t : List PyColumn) : List PyColumn := t.map renameColumn

/-- The name of the attached column, as a character list. -/
def sotaRefName : List Char := ['S', 'O', 'T', 'A', ' ', 'R', 'e', 'f']

theorem sotaRefName_eq_toList : sotaRefName = "SOTA Ref".toList := by decide

/-- Pandas column assignment: replace the column in place when the name
exists, append it at the end otherwise. -/
def setColumn (nm : List Char) (vals : List String) (t : List PyColumn) :
    List PyColumn :=
  if t.any (fun c => c.name == nm) then
    t.map (fun c => if c.name == nm then ⟨nm, vals⟩ else c)
  else t ++ [⟨nm, vals⟩]

/-- summit-match.py lines 11 and 25: the byregion sheet as written back,
renamed and with the SOTA Ref codes attached. -/
def summitMatchWrite (t : List PyColumn) (codes : List String) : List PyColumn :=
  setColumn sotaRefName codes (renameColumns t)

/-! ### summit-match.py: nearest-neighbour match (claim C1)

The cKDTree query with k equal to 1 returns, for each query point, the index
of a data point at minimal Euclidean distance.  Distances are compared
through their squares, which orders points identically and keeps the
computation rational. -/

structure GmSotaRow where
  latitude : ℚ
  longitude : ℚ
  summitcode : String

/-- Squared Euclidean distance between two coordinate pairs. -/
def sqDist (a b : ℚ × ℚ) : ℚ := (a.1 - b.1) ^ 2 + (a.2 - b.2) ^ 2

/-- Index and squared distance of a point of the list closest to q, ties
resolved toward the earlier index. -/
def nearest (q : ℚ × ℚ) : List (ℚ × ℚ) → ℕ × ℚ
  | [] => (0, 0)
  | [p] => (0, sqDist q p)
  | p :: ps =>
      let r := nearest q ps
      if sqDist q p ≤ r.2 then (0, sqDist q p) else (r.1 + 1, r.2)

/-- The (Latitude, Longitude) pair of a gm-sota row. -/
def rowCoords (r : GmSotaRow) : ℚ × ℚ := (r.latitude, r.longitude)

/-- The coordinate array extracted from the gm-sota sheet on line 16. -/
def gmCoords (gm : List GmSotaRow) : List (ℚ × ℚ) :=
  gm.map rowCoords

/-- Lines 19-25 for one query row: the Summitcode of the gm-sota row whose
coordinates are closest to q. -/
def querySotaRef (gm : List GmSotaRow) (q : ℚ × ℚ) : Option String :=
  (gm[(nearest q (gmCoords gm)).1]?).map (·.summitcode)

/-- Lines 22-25 of summit-match.py: the SOTA Ref column attached to the
byregion sheet, one code per byregion row. -/
def attachSotaRefs (gm : List GmSotaRow) (byPts : List (ℚ × ℚ)) :
    List (Option String) :=
  byPts.map (querySotaRef gm)

/-! ### Sample data used to instantiate the theorems -/

/-- A concrete summit row of the shape produced by summit-match.py. -/
def sampleRow : SummitRow :=
  ⟨"GM/SS-001", "Ben Sample", some "A1", some "Sample Area", some "SS", 4, 56, -4⟩

/-- A second row in the same area. -/
def sampleRow2 : SummitRow :=
  ⟨"GM/WS-002", "Ben Other", some "A1", some "Sample Area", some "NT", 6, 57, -5⟩

/-- A two-row sample dataframe. -/
def sampleRows : List SummitRow := [sampleRow, sampleRow2]

/-! ### Generic list lemmas used by several claims -/

theorem lookup_mem {α β : Type} [BEq α] [LawfulBEq α] :
    ∀ (l : List (α × β)) (a : α) (b : β), l.lookup a = some b → (a, b) ∈ l
  | [], a, b, h => by simp [List.lookup] at h
  | (k, v) :: t, a, b, h => by
      by_cases hak : a = k
      · subst hak
        simp [List.lookup] at h
        simp [h]
      · have hf : (a == k) = false := beq_eq_false_iff_ne.mpr hak
        rw [List.lookup_cons, hf] at h
        exact List.mem_cons_of_mem _ (lookup_mem t a b h)

theorem lookup_map_self {α β : Type} [BEq α] [LawfulBEq α] (f : α → β) :
    ∀ (ks : List α) (v : α),
      (ks.map (fun k => (k, f k))).lookup v = if v ∈ ks then some (f v) else none
  | [], v => by simp [List.lookup]
  | k :: t, v => by
      by_cases h : v = k
      · subst h
        simp [List.lookup_cons]
      · have hf : (v == k) = false := beq_eq_false_iff_ne.mpr h
        simp only [List.map, List.lookup_cons, hf, List.mem_cons]
        rw [lookup_map_self f t v]
        simp [h]

theorem count_filterMap {α β : Type} [BEq β] [LawfulBEq β] (f : α → Option β) (v : β) :
    ∀ l : List α, (l.filterMap f).count v = l.countP (fun x => f x == some v)
  | [] => rfl
  | x :: t => by
      rw [List.countP_cons]
      cases hf : f x with
      | none => simp [List.filterMap_cons, hf, count_filterMap f v t]
      | some b =>
          simp only [List.filterMap_cons, hf, List.count_cons, count_filterMap f v t]
          by_cases hb : b = v
          · subst hb; simp
          · have h1 : (b == v) = false := beq_eq_false_iff_ne.mpr hb
            have h2 : (some b == some v) = false := by simp [hb]
            simp [h1, h2]

theorem sum_map_ite_zero {β : Type} [BEq β] [LawfulBEq β] (a : β) :
    ∀ ks : List β, a ∉ ks → (ks.map (fun k => if a == k then (1 : ℕ) else 0)).sum = 0
  | [], _ => rfl
  | k :: t, h => by
      have hne : a ≠ k := fun hak => h (hak ▸ List.mem_cons_self k t)
      have ht : a ∉ t := fun hat => h (List.mem_cons_of_mem k hat)
      simp [beq_eq_false_iff_ne.mpr hne, sum_map_ite_zero a t ht]

theorem sum_map_ite_one {β : Type} [BEq β] [LawfulBEq β] (a : β) :
    ∀ ks : List β, ks.Nodup → a ∈ ks →
      (ks.map (fun k => if a == k then (1 : ℕ) else 0)).sum = 1
  | [], _, h => absurd h (List.not_mem_nil a)
  | k :: t, hnd, h => by
      rcases List.mem_cons.mp h with rfl | hat
      · have hnt : a ∉ t := (List.nodup_cons.mp hnd).1
        simp [sum_map_ite_zero a t hnt]
      · have hne : a ≠ k := by
          rintro rfl
          exact (List.nodup_cons.mp hnd).1 hat
        simp [beq_eq_false_iff_ne.mpr hne,
          sum_map_ite_one a t (List.nodup_cons.mp hnd).2 hat]

theorem sum_countP_partition {α β : Type} [BEq β] [LawfulBEq β]
    (P : α → Bool) (key : α → β) :
    ∀ (l : List α) (ks : List β), ks.Nodup → (∀ x ∈ l, P x = true → key x ∈ ks) →
      (ks.map (fun k => l.countP (fun x => P x && (key x == k)))).sum = l.countP P
  | [], ks, _, _ => by
      rw [List.countP_nil]
      apply List.sum_eq_zero
      intro x hx
      rcases List.mem_map.mp hx with ⟨k, _, rfl⟩
      exact List.countP_nil _
  | x :: t, ks, hnd, hcov => by
      have hrec := sum_countP_partition P key t ks hnd
        (fun y hy hPy => hcov y (List.mem_cons_of_mem x hy) hPy)
      simp only [List.countP_cons]
      rw [List.sum_map_add, hrec]
      by_cases hP : P x = true
      · have hmem : key x ∈ ks := hcov x (List.mem_cons_self x t) hP
        have hf : (fun k => if (P x && (key x == k)) = true then (1 : ℕ) else 0)
            = (fun k => if key x == k then (1 : ℕ) else 0) := by
          funext k
          rw [hP, Bool.true_and]
        rw [hf, sum_map_ite_one (key x) ks hnd hmem, hP]
        simp
      · have hPf : P x = false := Bool.eq_false_iff.mpr hP
        have hz : (ks.map (fun k => if (P x && (key x == k)) = true then (1 : ℕ) else 0)).sum
            = 0 := by
          apply List.sum_eq_zero
          intro y hy
          rcases List.mem_map.mp hy with ⟨k, _, rfl⟩
          simp [hPf]
        rw [hz]
        simp [hPf]

theorem filterMap_id_map_ite {β γ : Type} (q : β → Prop) [DecidablePred q] (f : β → γ) :
    ∀ l : List β,
      ((l.map (fun p => if q p then some (f p) else none)).filterMap id) =
        (l.filter (fun p => decide (q p))).map f
  | [] => rfl
  | x :: t => by
      by_cases hq : q x <;>
        simp [List.filter_cons, hq, List.filterMap_cons, filterMap_id_map_ite q f t]

theorem filterMap_id_map_optionMap {β γ : Type} (g : β → γ) :
    ∀ l : List (Option β),
      ((l.map (Option.map g)).filterMap id) = (l.filterMap id).map g
  | [] => rfl
  | x :: t => by
      cases x <;> simp [List.filterMap_cons, filterMap_id_map_optionMap g t]

theorem sum_map_cast_div (d : ℚ) :
    ∀ l : List ℕ, (l.map (fun n : ℕ => (n : ℚ) / d)).sum = ((l.sum : ℕ) : ℚ) / d
  | [] => by simp
  | x :: t => by
      simp only [List.map, List.sum_cons, sum_map_cast_div d t, Nat.cast_add]
      rw [add_div]

/-- Specification of the nearest search: the returned index is in range, its
squared distance is the returned one, and no point of the list is closer. -/
theorem nearest_spec (q : ℚ × ℚ) :
    ∀ pts : List (ℚ × ℚ), pts ≠ [] →
      (nearest q pts).1 < pts.length ∧
      (nearest q pts).2 = sqDist q (pts.getD (nearest q pts).1 q) ∧
      ∀ j, j < pts.length → (nearest q pts).2 ≤ sqDist q (pts.getD j q)
  | [], h => absurd rfl h
  | [p], _ => by
      refine ⟨Nat.zero_lt_one, rfl, ?_⟩
      intro j hj
      have hj0 : j = 0 := Nat.lt_one_iff.mp (by simpa using hj)
      subst hj0
      exact le_refl _
  | p :: p2 :: ps, _ => by
      obtain ⟨ih1, ih2, ih3⟩ := nearest_spec q (p2 :: ps) (by simp)
      have heq : nearest q (p :: p2 :: ps) =
          if sqDist q p ≤ (nearest q (p2 :: ps)).2 then (0, sqDist q p)
          else ((nearest q (p2 :: ps)).1 + 1, (nearest q (p2 :: ps)).2) := rfl
      by_cases hle : sqDist q p ≤ (nearest q (p2 :: ps)).2
      · rw [heq, if_pos hle]
        refine ⟨Nat.succ_pos _, rfl, ?_⟩
        intro j hj
        cases j with
        | zero => exact le_refl _
        | succ j => exact le_trans hle (ih3 j (Nat.lt_of_succ_lt_succ hj))
      · rw [heq, if_neg hle]
        refine ⟨Nat.succ_lt_succ ih1, ?_, ?_⟩
        · simpa using ih2
        · intro j hj
          cases j with
          | zero => exact le_of_lt (lt_of_not_le hle)
          | succ j => simpa using ih3 j (Nat.lt_of_succ_lt_succ hj)

/-! ## Claim C1 -/

/-- C1: for every row of the byregion sheet, the script attaches as SOTA Ref
the Summitcode of a gm-sota row whose coordinate pair is at minimal
Euclidean distance from that row's coordinates, minimized over all gm-sota
rows (squared distances order points exactly as Euclidean distances do),
and exactly one code is attached per byregion row. -/
theorem nearest_neighbor_attaches_closest_code
    (gm : List GmSotaRow) (byPts : List (ℚ × ℚ)) (hgm : gm ≠ []) :
    (attachSotaRefs gm byPts).length = byPts.length ∧
    ∀ i, i < byPts.length →
      ∃ k, ∃ hk : k < gm.length,
        (attachSotaRefs gm byPts)[i]? =
          some (some ((gm.get ⟨k, hk⟩).summitcode)) ∧
        ∀ j (hj : j < gm.length),
          sqDist (byPts.getD i (0, 0)) (rowCoords (gm.get ⟨k, hk⟩)) ≤
            sqDist (byPts.getD i (0, 0)) (rowCoords (gm.get ⟨j, hj⟩)) := by
  refine ⟨List.length_map _ _, ?_⟩
  intro i hi
  have hqi : byPts[i]? = some (byPts.getD i (0, 0)) := by
    rw [List.getElem?_eq_getElem hi, List.getD_eq_getElem _ _ hi]
  have hne : gmCoords gm ≠ [] := by
    cases gm with
    | nil => exact absurd rfl hgm
    | cons r t => simp [gmCoords]
  obtain ⟨h1, h2, h3⟩ := nearest_spec (byPts.getD i (0, 0)) (gmCoords gm) hne
  have hlen : (gmCoords gm).length = gm.length := List.length_map _ _
  have hk : (nearest (byPts.getD i (0, 0)) (gmCoords gm)).1 < gm.length := hlen ▸ h1
  have hco : ∀ j (hj : j < gm.length),
      (gmCoords gm).getD j (byPts.getD i (0, 0)) = rowCoords (gm.get ⟨j, hj⟩) := by
    intro j hj
    have hj2 : j < (gmCoords gm).length := hlen ▸ hj
    rw [List.getD_eq_getElem _ _ hj2]
    simp [gmCoords]
  refine ⟨(nearest (byPts.getD i (0, 0)) (gmCoords gm)).1, hk, ?_, ?_⟩
  · have hmap : (attachSotaRefs gm byPts)[i]? =
        (byPts[i]?).map (querySotaRef gm) := List.getElem?_map _ _ _
    have hq : querySotaRef gm (byPts.getD i (0, 0)) =
        some ((gm.get ⟨(nearest (byPts.getD i (0, 0)) (gmCoords gm)).1, hk⟩).summitcode) := by
      unfold querySotaRef
      rw [List.getElem?_eq_getElem hk]
      simp
    rw [hmap, hqi, Option.map_some', hq]
  · intro j hj
    have hkk := hco _ hk
    have hjj := hco j hj
    rw [← hkk, ← hjj, ← h2]
    exact h3 j (hlen ▸ hj)

/-- Witness for C1: two concrete gm-sota rows and one byregion point; the
hypothesis that the gm-sota sheet is nonempty holds and the script attaches
exactly one code to the single row. -/
theorem nearest_neighbor_attaches_closest_code_witness :
    (attachSotaRefs [⟨0, 0, "GM/SS-001"⟩, ⟨3, 4, "GM/NS-048"⟩] [(1, 1)]).length = 1 :=
  (nearest_neighbor_attaches_closest_code
    [⟨0, 0, "GM/SS-001"⟩, ⟨3, 4, "GM/NS-048"⟩] [(1, 1)]
    (List.cons_ne_nil _ _)).1

/-! ## Claim C8 -/

theorem le_foldr_max (n : ℕ) : ∀ ns : List ℕ, n ∈ ns → n ≤ ns.foldr max 0
  | [], h => absurd h (List.not_mem_nil n)
  | m :: t, h => by
      rcases List.mem_cons.mp h with rfl | ht
      · exact le_max_left _ _
      · exact le_trans (le_foldr_max n t ht) (le_max_right _ _)

theorem count_le_of_mem_pdMode {l : List String} {v : String} (h : v ∈ pdMode l) :
    ∀ w, l.count w ≤ l.count v := by
  intro w
  unfold pdMode at h
  rw [mem_pySorted] at h
  rcases List.mem_filter.mp h with ⟨_, hv⟩
  have hv2 : l.count v = (l.dedup.map (fun u => l.count u)).foldr max 0 := by
    simpa using hv
  by_cases hw : w ∈ l
  · have : l.count w ∈ l.dedup.map (fun u => l.count u) :=
      List.mem_map.mpr ⟨w, List.mem_dedup.mpr hw, rfl⟩
    rw [hv2]
    exact le_foldr_max _ _ this
  · rw [List.count_eq_zero.mpr hw]
    exact Nat.zero_le _

/-- C8: the computed select-box default is always one of the six regions,
so the position lookup done for the index argument on line 47 succeeds, and
the default is SS or a value of maximal multiplicity among the area's
existing New gm region values. -/
theorem default_region_always_valid (rows : List SummitRow) (a : String) :
    defaultValue rows a ∈ sotaRegions ∧
    List.indexOf (defaultValue rows a) sotaRegions < sotaRegions.length ∧
    (defaultValue rows a = "SS" ∨
      ∀ w, (areaNewGmValues rows a).count w ≤
        (areaNewGmValues rows a).count (defaultValue rows a)) := by
  have hmem : defaultValue rows a ∈ sotaRegions := by
    unfold defaultValue
    split
    · decide
    · split
      · assumption
      · decide
  refine ⟨hmem, List.indexOf_lt_length.mpr hmem, ?_⟩
  unfold defaultValue
  split
  · exact Or.inl rfl
  · rename_i v t hmode
    split
    · refine Or.inr ?_
      have hv : v ∈ pdMode (areaNewGmValues rows a) := by
        rw [hmode]
        exact List.mem_cons_self v t
      exact count_le_of_mem_pdMode hv
    · exact Or.inl rfl

/-! ## Claim C10 -/

theorem searchSlash2_eq_none :
    ∀ l : List Char, (∀ t ∈ l.tails, matchSlash2At t = none) → searchSlash2 l = none
  | [], _ => rfl
  | c :: rest, h => by
      have h0 : matchSlash2At (c :: rest) = none := by
        apply h
        rw [List.tails_cons]
        exact List.mem_cons_self _ _
      have hrec : searchSlash2 rest = none := by
        apply searchSlash2_eq_none rest
        intro t ht
        apply h
        rw [List.tails_cons]
        exact List.mem_cons_of_mem _ ht
      simp [searchSlash2, h0, hrec]

/-- C10: on every SOTA reference of the form GM/ followed by two uppercase
letters and a dash, the Original Region extraction of line 16 and
extract_sota_region of line 23 agree, both producing exactly those two
letters; and extract_sota_region is total, returning the empty string on
any input in which its pattern occurs at no position. -/
theorem region_extraction_agreement :
    (∀ (c1 c2 : Char) (rest : List Char),
      isUpperAZ c1 = true → isUpperAZ c2 = true →
      extractOrigRegion (String.mk ('G' :: 'M' :: '/' :: c1 :: c2 :: '-' :: rest)) =
        some (String.mk [c1, c2]) ∧
      extract_sota_region (String.mk ('G' :: 'M' :: '/' :: c1 :: c2 :: '-' :: rest)) =
        String.mk [c1, c2]) ∧
    (∀ s : String, (∀ t ∈ s.toList.tails, matchSlash2At t = none) →
      extract_sota_region s = "") := by
  constructor
  · intro c1 c2 rest h1 h2
    have hdash : isUpperAZ ('-') = false := by decide
    have hGM : matchGMAt ('G' :: 'M' :: '/' :: c1 :: c2 :: '-' :: rest) =
        some [c1, c2] := by
      simp [matchGMAt, h1, h2, hdash]
    have hS0 : matchSlash2At ('G' :: 'M' :: '/' :: c1 :: c2 :: '-' :: rest) = none := rfl
    have hS1 : matchSlash2At ('M' :: '/' :: c1 :: c2 :: '-' :: rest) = none := rfl
    have hS2 : matchSlash2At ('/' :: c1 :: c2 :: '-' :: rest) = some (c1, c2) := by
      simp [matchSlash2At, h1, h2]
    constructor
    · unfold extractOrigRegion
      have : searchGM ('G' :: 'M' :: '/' :: c1 :: c2 :: '-' :: rest) = some [c1, c2] := by
        simp [searchGM, hGM]
      rw [show (String.mk ('G' :: 'M' :: '/' :: c1 :: c2 :: '-' :: rest)).toList =
        'G' :: 'M' :: '/' :: c1 :: c2 :: '-' :: rest from rfl, this]
      rfl
    · unfold extract_sota_region
      have : searchSlash2 ('G' :: 'M' :: '/' :: c1 :: c2 :: '-' :: rest) =
          some (c1, c2) := by
        simp [searchSlash2, hS0, hS1, hS2]
      rw [show (String.mk ('G' :: 'M' :: '/' :: c1 :: c2 :: '-' :: rest)).toList =
        'G' :: 'M' :: '/' :: c1 :: c2 :: '-' :: rest from rfl, this]
  · intro s hs
    unfold extract_sota_region
    rw [searchSlash2_eq_none s.toList hs]

/-! ## Claim C2 -/

theorem pyToLower_ne_O (c : Char) : pyToLower c ≠ 'O' := by
  unfold pyToLower
  cases h : caseTable.lookup c with
  | none =>
      simp only [Option.getD_none]
      intro hc
      subst hc
      have hO : caseTable.lookup 'O' = some 'o' := by decide
      rw [hO] at h
      exact Option.noConfusion h
  | some d =>
      simp only [Option.getD_some]
      have hmem : (c, d) ∈ caseTable := lookup_mem caseTable c d h
      have hall : ∀ p ∈ caseTable, p.2 ≠ 'O' := by decide
      exact hall (c, d) hmem

/-- The output of capitalize never has an uppercase second character, so no
renamed column can be called SOTA Ref. -/
theorem pyCapitalize_ne_sotaRefName (l : List Char) : pyCapitalize l ≠ sotaRefName := by
  cases l with
  | nil => simp [pyCapitalize, sotaRefName]
  | cons c cs =>
      cases cs with
      | nil => simp [pyCapitalize, sotaRefName]
      | cons c1 cs1 =>
          intro h
          unfold pyCapitalize sotaRefName at h
          simp only [List.map, List.cons.injEq] at h
          exact pyToLower_ne_O c1 h.2.1

theorem renameColumns_no_sotaRef (t : List PyColumn) :
    (renameColumns t).any (fun c => c.name == sotaRefName) = false := by
  rw [List.any_eq_false]
  intro c hc
  rcases List.mem_map.mp hc with ⟨x, _, rfl⟩
  intro hbeq
  exact pyCapitalize_ne_sotaRefName (pyStrip x.name) (by simpa [renameColumn] using hbeq)

/-- C2 counterexample: on a sheet holding a single column named SOTA Points,
the written-back sheet keeps no column of that name — line 11 rewrites it to
Sota points — so the names of the output are not the original names with
SOTA Ref appended, contradicting the claim that pre-existing column names
are written back unchanged. -/
theorem written_sheet_renames_columns :
    (summitMatchWrite [⟨"SOTA Points".toList, ["5"]⟩] ["GM/SS-001"]).map
        (fun c => c.name) = ["Sota points".toList, "SOTA Ref".toList] ∧
    ¬ ((summitMatchWrite [⟨"SOTA Points".toList, ["5"]⟩] ["GM/SS-001"]).map
        (fun c => c.name) =
      [(⟨"SOTA Points".toList, ["5"]⟩ : PyColumn)].map (fun c => c.name) ++
        ["SOTA Ref".toList]) := by
  constructor
  · decide
  · decide

/-- C2 amended: the script writes back every pre-existing column with its
values unchanged and in order, but with its name normalized by Python
strip().capitalize(); the SOTA Ref column is appended (never replaced,
since no normalized name can equal SOTA Ref). -/
theorem written_sheet_keeps_values_normalizes_names
    (t : List PyColumn) (codes : List String) :
    summitMatchWrite t codes = renameColumns t ++ [⟨sotaRefName, codes⟩] ∧
    (summitMatchWrite t codes).map (fun c => c.values) =
      t.map (fun c => c.values) ++ [codes] ∧
    (summitMatchWrite t codes).map (fun c => c.name) =
      t.map (fun c => pyCapitalize (pyStrip c.name)) ++ [sotaRefName] := by
  have h1 : summitMatchWrite t codes = renameColumns t ++ [⟨sotaRefName, codes⟩] := by
    unfold summitMatchWrite setColumn
    rw [renameColumns_no_sotaRef t]
    simp
  refine ⟨h1, ?_, ?_⟩
  · rw [h1, List.map_append]
    simp [renameColumns, renameColumn, List.map_map, Function.comp]
  · rw [h1, List.map_append]
    simp [renameColumns, renameColumn, List.map_map, Function.comp]

/-- Witness for C10: the uppercase hypotheses hold at GM/SB-001, where both
extractions return SB, and the empty-string clause holds at GM-001, where
the pattern occurs nowhere. -/
theorem region_extraction_agreement_witness :
    extractOrigRegion (String.mk ['G', 'M', '/', 'S', 'B', '-', '0', '0', '1']) =
      some (String.mk ['S', 'B']) ∧
    extract_sota_region (String.mk ['G', 'M', '/', 'S', 'B', '-', '0', '0', '1']) =
      String.mk ['S', 'B'] ∧
    extract_sota_region "GM-001" = "" :=
  ⟨(region_extraction_agreement.1 'S' 'B' ['0', '0', '1'] (by decide) (by decide)).1,
   (region_extraction_agreement.1 'S' 'B' ['0', '0', '1'] (by decide) (by decide)).2,
   region_extraction_agreement.2 "GM-001" (by decide)⟩

/-! ## Claim C3 -/

/-- C3: the sidebar iterates once over the sorted, duplicate-free list of
distinct non-missing Area values, presenting one select box per area whose
option set is always the fixed six-region list, and the resulting
area_to_region mapping has exactly the areas as keys and assigns each area
the single selected region, one of the six. -/
theorem sidebar_controls_and_mapping (rows : List SummitRow)
    (choice : String → Fin 6) (a : String) (ha : a ∈ areaList rows) :
    (areaList rows).Pairwise strLe ∧
    (areaList rows).Nodup ∧
    (∀ x : String, x ∈ areaList rows ↔ some x ∈ rows.map (fun r => r.area)) ∧
    (sidebarControls rows).length = (areaList rows).length ∧
    (∀ ctrl ∈ sidebarControls rows, ctrl.2 = sotaRegions) ∧
    (areaToRegion choice rows).map Prod.fst = areaList rows ∧
    (areaToRegion choice rows).lookup a = some (chosenRegion choice a) ∧
    chosenRegion choice a ∈ sotaRegions := by
  refine ⟨pySorted_sorted _, pySorted_nodup (List.nodup_dedup _), ?_, List.length_map _ _,
    ?_, ?_, ?_, ?_⟩
  · intro x
    simp [areaList, mem_pySorted, List.mem_dedup, List.mem_filterMap, List.mem_map]
  · intro ctrl hc
    rcases List.mem_map.mp hc with ⟨x, _, rfl⟩
    rfl
  · unfold areaToRegion
    have hcomp : (Prod.fst ∘ fun x : String => (x, chosenRegion choice x)) = id := rfl
    rw [List.map_map, hcomp, List.map_id]
  · unfold areaToRegion
    rw [lookup_map_self (chosenRegion choice) (areaList rows) a, if_pos ha]
  · exact List.get_mem _ _ _

/-- Witness for C3: on the sample rows the single area A1 is in the sidebar
list and the mapping sends it to the selected region. -/
theorem sidebar_controls_and_mapping_witness :
    (areaToRegion (fun _ => (0 : Fin 6)) sampleRows).lookup "A1" =
      some (chosenRegion (fun _ => (0 : Fin 6)) "A1") :=
  (sidebar_controls_and_mapping sampleRows (fun _ => (0 : Fin 6)) "A1"
    (by decide)).2.2.2.2.2.2.1

/-! ## Claim C4 -/

/-- C4: in the downloaded data, every row whose Area appears among the
sidebar controls carries, in New gm region, exactly the region currently
selected for that area, and the download holds one row per input row,
produced after the assignment of line 125. -/
theorem csv_rows_updated (rows : List SummitRow) (choice : String → Fin 6)
    (i : ℕ) (hi : i < rows.length) (a : String)
    (ha : (rows.get ⟨i, hi⟩).area = some a) :
    (downloadRows choice rows).length = rows.length ∧
    ((downloadRows choice rows)[i]?).map (fun r => r.newGmRegion) =
      some (some (chosenRegion choice a)) := by
  refine ⟨List.length_map _ _, ?_⟩
  have hmem : a ∈ areaList rows := by
    unfold areaList
    rw [mem_pySorted, List.mem_dedup]
    exact List.mem_filterMap.mpr ⟨rows.get ⟨i, hi⟩, List.get_mem _ _ _, ha⟩
  have hlk : (areaToRegion choice rows).lookup a = some (chosenRegion choice a) := by
    unfold areaToRegion
    rw [lookup_map_self (chosenRegion choice) (areaList rows) a, if_pos hmem]
  have hup : (downloadRows choice rows)[i]? =
      some (updateRow choice rows (rows.get ⟨i, hi⟩)) := by
    unfold downloadRows
    rw [List.getElem?_map, List.getElem?_eq_getElem hi]
    simp
  rw [hup, Option.map_some']
  unfold updateRow
  rw [List.get_eq_getElem] at ha
  simp [ha, hlk]

/-- Witness for C4: row 0 of the sample rows has area A1, and its
downloaded New gm region is the selected region for A1. -/
theorem csv_rows_updated_witness :
    ((downloadRows (fun _ => (0 : Fin 6)) sampleRows)[0]?).map
        (fun r => r.newGmRegion) =
      some (some (chosenRegion (fun _ => (0 : Fin 6)) "A1")) :=
  (csv_rows_updated sampleRows (fun _ => (0 : Fin 6)) 0 (by decide) "A1" (by decide)).2

/-! ## Claims C5 and C6 -/

theorem valueCounts_lookup_getD (l : List String) (r : String) :
    ((valueCounts l).lookup r).getD 0 = l.count r := by
  unfold valueCounts
  rw [lookup_map_self (fun v => l.count v) l.dedup r]
  by_cases h : r ∈ l.dedup
  · rw [if_pos h]
    rfl
  · rw [if_neg h, Option.getD_none]
    exact (List.count_eq_zero.mpr (fun hr => h (List.mem_dedup.mpr hr))).symm

theorem originalEntry_eq_countP (rows : List SummitRow) (r : String) :
    originalEntry rows r = rows.countP (fun x => origRegion x == some r) := by
  unfold originalEntry
  rw [valueCounts_lookup_getD]
  unfold origRegionValues
  exact count_filterMap origRegion r rows

theorem newEntry_eq_countP (choice : String → Fin 6) (rows : List SummitRow)
    (r : String) :
    newEntry choice rows r =
      rows.countP (fun x => assignedRegion choice rows x == some r) := by
  unfold newEntry
  rw [valueCounts_lookup_getD]
  unfold assignedValues
  exact count_filterMap (assignedRegion choice rows) r rows

theorem mem_comparisonIndex {choice : String → Fin 6} {rows : List SummitRow}
    {v : String} :
    v ∈ comparisonIndex choice rows ↔
      v ∈ origRegionValues rows ∨ v ∈ assignedValues choice rows := by
  unfold comparisonIndex
  rw [List.mem_append]
  constructor
  · rintro (h | h)
    · exact Or.inl (List.mem_dedup.mp h)
    · exact Or.inr (List.mem_dedup.mp (List.mem_filter.mp h).1)
  · rintro (h | h)
    · exact Or.inl (List.mem_dedup.mpr h)
    · by_cases ho : v ∈ (origRegionValues rows).dedup
      · exact Or.inl ho
      · exact Or.inr (List.mem_filter.mpr ⟨List.mem_dedup.mpr h, decide_eq_true ho⟩)

theorem comparisonIndex_nodup (choice : String → Fin 6) (rows : List SummitRow) :
    (comparisonIndex choice rows).Nodup := by
  unfold comparisonIndex
  refine List.Nodup.append (List.nodup_dedup _)
    (List.Nodup.filter _ (List.nodup_dedup _)) ?_
  rw [List.disjoint_left]
  intro a ha hfa
  have hdec := (List.mem_filter.mp hfa).2
  rw [decide_eq_true_eq] at hdec
  exact hdec ha

/-- C5: for every region label r, the Original entry of the comparison table
is the number of rows whose Original Region is r and the New entry is the
number of rows whose Assigned Region is r; a region occurring in neither
column of rows shows the integer 0 in the corresponding entry. -/
theorem comparison_table_counts (rows : List SummitRow)
    (choice : String → Fin 6) (r : String) :
    originalEntry rows r = rows.countP (fun x => origRegion x == some r) ∧
    newEntry choice rows r =
      rows.countP (fun x => assignedRegion choice rows x == some r) ∧
    ((∀ x ∈ rows, origRegion x ≠ some r) → originalEntry rows r = 0) ∧
    ((∀ x ∈ rows, assignedRegion choice rows x ≠ some r) →
      newEntry choice rows r = 0) := by
  refine ⟨originalEntry_eq_countP rows r, newEntry_eq_countP choice rows r, ?_, ?_⟩
  · intro h
    rw [originalEntry_eq_countP, List.countP_eq_zero]
    intro x hx
    simpa using h x hx
  · intro h
    rw [newEntry_eq_countP, List.countP_eq_zero]
    intro x hx
    simpa using h x hx

/-- Witness for C5: no sample row has Original Region QQ or Assigned Region
QQ, so both entries at label QQ are zero. -/
theorem comparison_table_counts_witness :
    originalEntry sampleRows "QQ" = 0 ∧
    newEntry (fun _ => (0 : Fin 6)) sampleRows "QQ" = 0 :=
  ⟨(comparison_table_counts sampleRows (fun _ => (0 : Fin 6)) "QQ").2.2.1 (by decide),
   (comparison_table_counts sampleRows (fun _ => (0 : Fin 6)) "QQ").2.2.2 (by decide)⟩

/-- C6: when every row has a non-missing Original Region and a non-missing
Area (hence one covered by the sidebar mapping), both columns of the
comparison table sum to the number of rows. -/
theorem reassignment_conserves_total (rows : List SummitRow)
    (choice : String → Fin 6)
    (h1 : ∀ x ∈ rows, origRegion x ≠ none)
    (h2 : ∀ x ∈ rows, x.area ≠ none) :
    originalColumnSum rows choice = rows.length ∧
    newColumnSum rows choice = rows.length := by
  have hnd : ((comparisonIndex choice rows).map some).Nodup :=
    List.Nodup.map (Option.some_injective String) (comparisonIndex_nodup choice rows)
  constructor
  · have hcov : ∀ x ∈ rows, (fun _ : SummitRow => true) x = true →
        origRegion x ∈ (comparisonIndex choice rows).map some := by
      intro x hx _
      cases ho : origRegion x with
      | none => exact absurd ho (h1 x hx)
      | some v =>
          refine List.mem_map.mpr ⟨v, ?_, rfl⟩
          exact mem_comparisonIndex.mpr (Or.inl (List.mem_filterMap.mpr ⟨x, hx, ho⟩))
    have hpart := sum_countP_partition (fun _ : SummitRow => true) origRegion rows
      ((comparisonIndex choice rows).map some) hnd hcov
    rw [List.countP_true] at hpart
    have hsum : originalColumnSum rows choice =
        (((comparisonIndex choice rows).map some).map
          (fun k => rows.countP
            (fun x => (fun _ : SummitRow => true) x && (origRegion x == k)))).sum := by
      unfold originalColumnSum
      rw [List.map_map]
      apply congrArg List.sum
      apply List.map_congr_left
      intro v hv
      rw [originalEntry_eq_countP]
      have hfun : (fun x : SummitRow => origRegion x == some v) =
          (fun x : SummitRow => true && (origRegion x == some v)) := by
        funext x
        rw [Bool.true_and]
      rw [hfun]
      rfl
    rw [hsum, hpart]
  · have hcov : ∀ x ∈ rows, (fun _ : SummitRow => true) x = true →
        assignedRegion choice rows x ∈ (comparisonIndex choice rows).map some := by
      intro x hx _
      cases ha : x.area with
      | none => exact absurd ha (h2 x hx)
      | some a =>
          have hmem : a ∈ areaList rows := by
            unfold areaList
            rw [mem_pySorted, List.mem_dedup]
            exact List.mem_filterMap.mpr ⟨x, hx, ha⟩
          have hassign : assignedRegion choice rows x = some (chosenRegion choice a) := by
            unfold assignedRegion areaToRegion
            rw [ha, Option.some_bind,
              lookup_map_self (chosenRegion choice) (areaList rows) a, if_pos hmem]
          rw [hassign]
          refine List.mem_map.mpr ⟨chosenRegion choice a, ?_, rfl⟩
          refine mem_comparisonIndex.mpr (Or.inr (List.mem_filterMap.mpr ⟨x, hx, ?_⟩))
          exact hassign
    have hpart := sum_countP_partition (fun _ : SummitRow => true)
      (assignedRegion choice rows) rows
      ((comparisonIndex choice rows).map some) hnd hcov
    rw [List.countP_true] at hpart
    have hsum : newColumnSum rows choice =
        (((comparisonIndex choice rows).map some).map
          (fun k => rows.countP
            (fun x => (fun _ : SummitRow => true) x &&
              (assignedRegion choice rows x == k)))).sum := by
      unfold newColumnSum
      rw [List.map_map]
      apply congrArg List.sum
      apply List.map_congr_left
      intro v hv
      rw [newEntry_eq_countP]
      have hfun : (fun x : SummitRow => assignedRegion choice rows x == some v) =
          (fun x : SummitRow => true && (assignedRegion choice rows x == some v)) := by
        funext x
        rw [Bool.true_and]
      rw [hfun]
      rfl
    rw [hsum, hpart]

/-- Witness for C6: both sample rows have an Original Region and an Area, so
both table columns sum to the row count 2. -/
theorem reassignment_conserves_total_witness :
    originalColumnSum sampleRows (fun _ => (0 : Fin 6)) = 2 ∧
    newColumnSum sampleRows (fun _ => (0 : Fin 6)) = 2 :=
  reassignment_conserves_total sampleRows (fun _ => (0 : Fin 6))
    (by decide) (by decide)

/-! ## Claim C7 -/

theorem colorAssign_mem (cmap : ℕ → ℕ → ℚ × ℚ × ℚ) (n : ℕ) :
    ∀ (u : List String) (i : ℕ) (v : String) (color : List ℤ),
      (v, color) ∈ colorAssign cmap n i u → ∃ j, color = colorTriple (cmap n j)
  | [], _, _, _, h => absurd h (List.not_mem_nil _)
  | x :: xs, i, v, color, h => by
      rcases List.mem_cons.mp h with heq | ht
      · exact ⟨i, congrArg Prod.snd heq⟩
      · exact colorAssign_mem cmap n xs (i + 1) v color ht

theorem scale255_bounds (c : ℚ) (h0 : 0 ≤ c) (h1 : c ≤ 1) :
    0 ≤ scale255 c ∧ scale255 c ≤ 255 := by
  unfold scale255 pyInt
  have hnn : (0 : ℚ) ≤ c * 255 := mul_nonneg h0 (by norm_num)
  rw [if_neg (not_lt.mpr hnn)]
  constructor
  · exact Int.floor_nonneg.mpr hnn
  · have h255 : c * 255 ≤ (255 : ℚ) := by nlinarith
    calc Int.floor (c * 255) ≤ Int.floor ((255 : ℚ)) := Int.floor_le_floor h255
      _ = 255 := by norm_num

/-- C7: marker recoloring is a function of the colour-by value through the
one shared colour map — rows with equal non-missing colour-by values get the
same colour — and, for any colormap whose components lie in the unit
interval (the matplotlib contract), every colour that make_color_map
produces is a list of exactly three integers between 0 and 255. -/
theorem marker_colors_consistent_and_valid (cmap : ℕ → ℕ → ℚ × ℚ × ℚ)
    (hc : ∀ n i, 0 ≤ (cmap n i).1 ∧ (cmap n i).1 ≤ 1 ∧
      0 ≤ (cmap n i).2.1 ∧ (cmap n i).2.1 ≤ 1 ∧
      0 ≤ (cmap n i).2.2 ∧ (cmap n i).2.2 ≤ 1) :
    (∀ (cb : ColourBy) (choice : String → Fin 6) (rows : List SummitRow)
        (r1 r2 : SummitRow),
      colourByValue cb r1 = colourByValue cb r2 → colourByValue cb r1 ≠ none →
      rowColor cmap cb choice rows r1 = rowColor cmap cb choice rows r2) ∧
    (∀ (values : List (Option String)) (v : String) (color : List ℤ),
      (v, color) ∈ make_color_map cmap values →
      color.length = 3 ∧ ∀ x ∈ color, 0 ≤ x ∧ x ≤ 255) := by
  constructor
  · intro cb choice rows r1 r2 hvv _
    unfold rowColor
    rw [hvv]
  · intro values v color hmem
    simp only [make_color_map] at hmem
    obtain ⟨j, rfl⟩ :=
      colorAssign_mem cmap (pySorted (values.filterMap id).dedup).length
        (pySorted (values.filterMap id).dedup) 0 v color hmem
    refine ⟨rfl, ?_⟩
    intro x hx
    obtain ⟨hA, hB, hC, hD, hE, hF⟩ :=
      hc (pySorted (values.filterMap id).dedup).length j
    unfold colorTriple at hx
    rcases List.mem_cons.mp hx with rfl | hx
    · exact scale255_bounds _ hA hB
    rcases List.mem_cons.mp hx with rfl | hx
    · exact scale255_bounds _ hC hD
    rcases List.mem_cons.mp hx with rfl | hx
    · exact scale255_bounds _ hE hF
    · exact absurd hx (List.not_mem_nil x)

/-! ## Claim C9 -/

theorem allPointCols_nodup (choice : String → Fin 6) (rows : List SummitRow) :
    (allPointCols choice rows).Nodup := by
  unfold allPointCols
  refine List.Nodup.append (List.nodup_dedup _)
    (List.Nodup.filter _ (List.nodup_dedup _)) ?_
  rw [List.disjoint_left]
  intro a ha hfa
  have hdec := (List.mem_filter.mp hfa).2
  rw [decide_eq_true_eq] at hdec
  exact hdec ha

theorem mem_allPointCols_of_orig {choice : String → Fin 6} {rows : List SummitRow}
    {p : Int} (h : p ∈ origPointCols choice rows) : p ∈ allPointCols choice rows := by
  unfold allPointCols
  exact List.mem_append_left _ h

theorem mem_allPointCols_of_new {choice : String → Fin 6} {rows : List SummitRow}
    {p : Int} (h : p ∈ newPointCols choice rows) : p ∈ allPointCols choice rows := by
  unfold allPointCols
  by_cases ho : p ∈ origPointCols choice rows
  · exact List.mem_append_left _ ho
  · exact List.mem_append_right _ (List.mem_filter.mpr ⟨h, decide_eq_true ho⟩)

theorem orig_row_normalized (choice : String → Fin 6) (rows : List SummitRow)
    (r : String) (hr : r ∈ origLabels choice rows) :
    1 ≤ rowDivisor choice rows (r, true) ∧
    ((percentRow choice rows (r, true)).filterMap id).sum = 1 := by
  have hentries : (combinedRowEntries choice rows (r, true)).filterMap id =
      ((allPointCols choice rows).filter
        (fun p => decide (p ∈ origPointCols choice rows))).map
        (fun p => origCount choice rows r p) := by
    show ((allPointCols choice rows).map
      (fun p => if p ∈ origPointCols choice rows then some (origCount choice rows r p)
        else none)).filterMap id = _
    exact filterMap_id_map_ite _ _ _
  have hksnodup : ((allPointCols choice rows).filter
      (fun p => decide (p ∈ origPointCols choice rows))).Nodup :=
    List.Nodup.filter _ (allPointCols_nodup choice rows)
  have hcov : ∀ x ∈ downloadRows choice rows, (origSotaRegion x == r) = true →
      (fun y : SummitRow => y.points) x ∈ (allPointCols choice rows).filter
        (fun p => decide (p ∈ origPointCols choice rows)) := by
    intro x hx _
    have hop : x.points ∈ origPointCols choice rows :=
      List.mem_dedup.mpr (List.mem_map.mpr ⟨x, hx, rfl⟩)
    exact List.mem_filter.mpr ⟨mem_allPointCols_of_orig hop, decide_eq_true hop⟩
  have hsum : (((allPointCols choice rows).filter
      (fun p => decide (p ∈ origPointCols choice rows))).map
      (fun p => origCount choice rows r p)).sum =
      (downloadRows choice rows).countP (fun x => origSotaRegion x == r) := by
    unfold origCount
    exact sum_countP_partition (fun x => origSotaRegion x == r)
      (fun y : SummitRow => y.points) (downloadRows choice rows) _ hksnodup hcov
  have hdivisor : rowDivisor choice rows (r, true) =
      (downloadRows choice rows).countP (fun x => origSotaRegion x == r) := by
    unfold rowDivisor
    rw [hentries]
    exact hsum
  have hpos : 0 < (downloadRows choice rows).countP (fun x => origSotaRegion x == r) := by
    apply List.countP_pos_iff.mpr
    obtain ⟨x, hx, hxr⟩ := List.mem_map.mp (List.mem_dedup.mp hr)
    exact ⟨x, hx, by simp [hxr]⟩
  constructor
  · rw [hdivisor]
    exact hpos
  · unfold percentRow
    rw [filterMap_id_map_optionMap, hentries, sum_map_cast_div, hsum, ← hdivisor]
    apply div_self
    have : rowDivisor choice rows (r, true) ≠ 0 := by
      rw [hdivisor]
      exact Nat.pos_iff_ne_zero.mp hpos
    exact_mod_cast Nat.cast_ne_zero.mpr this

theorem new_row_normalized (choice : String → Fin 6) (rows : List SummitRow)
    (r : String) (hr : r ∈ newLabels choice rows) :
    1 ≤ rowDivisor choice rows (r, false) ∧
    ((percentRow choice rows (r, false)).filterMap id).sum = 1 := by
  have hentries : (combinedRowEntries choice rows (r, false)).filterMap id =
      ((allPointCols choice rows).filter
        (fun p => decide (p ∈ newPointCols choice rows))).map
        (fun p => newCount choice rows r p) := by
    show ((allPointCols choice rows).map
      (fun p => if p ∈ newPointCols choice rows then some (newCount choice rows r p)
        else none)).filterMap id = _
    exact filterMap_id_map_ite _ _ _
  have hksnodup : ((allPointCols choice rows).filter
      (fun p => decide (p ∈ newPointCols choice rows))).Nodup :=
    List.Nodup.filter _ (allPointCols_nodup choice rows)
  have hcov : ∀ x ∈ downloadRows choice rows, (x.newGmRegion == some r) = true →
      (fun y : SummitRow => y.points) x ∈ (allPointCols choice rows).filter
        (fun p => decide (p ∈ newPointCols choice rows)) := by
    intro x hx hxr
    have hxg : x ∈ newGroupRows choice rows := by
      unfold newGroupRows
      refine List.mem_filter.mpr ⟨hx, ?_⟩
      have : x.newGmRegion = some r := by simpa using hxr
      simp [this]
    have hop : x.points ∈ newPointCols choice rows :=
      List.mem_dedup.mpr (List.mem_map.mpr ⟨x, hxg, rfl⟩)
    exact List.mem_filter.mpr ⟨mem_allPointCols_of_new hop, decide_eq_true hop⟩
  have hsum : (((allPointCols choice rows).filter
      (fun p => decide (p ∈ newPointCols choice rows))).map
      (fun p => newCount choice rows r p)).sum =
      (downloadRows choice rows).countP (fun x => x.newGmRegion == some r) := by
    unfold newCount
    exact sum_countP_partition (fun x => x.newGmRegion == some r)
      (fun y : SummitRow => y.points) (downloadRows choice rows) _ hksnodup hcov
  have hdivisor : rowDivisor choice rows (r, false) =
      (downloadRows choice rows).countP (fun x => x.newGmRegion == some r) := by
    unfold rowDivisor
    rw [hentries]
    exact hsum
  have hpos : 0 < (downloadRows choice rows).countP
      (fun x => x.newGmRegion == some r) := by
    apply List.countP_pos_iff.mpr
    obtain ⟨x, hxg, hxr⟩ := List.mem_filterMap.mp (List.mem_dedup.mp hr)
    have hx : x ∈ downloadRows choice rows := (List.mem_filter.mp hxg).1
    exact ⟨x, hx, by simp [hxr]⟩
  constructor
  · rw [hdivisor]
    exact hpos
  · unfold percentRow
    rw [filterMap_id_map_optionMap, hentries, sum_map_cast_div, hsum, ← hdivisor]
    apply div_self
    have : rowDivisor choice rows (r, false) ≠ 0 := by
      rw [hdivisor]
      exact Nat.pos_iff_ne_zero.mp hpos
    exact_mod_cast Nat.cast_ne_zero.mpr this

/-- C9: every row label of the proportional-distribution table names a
non-empty groupby group, so its divisor, the row sum of counts, is at least
1, the normalization never divides by zero, and every normalized row sums
(over its present entries, as pandas row operations do) to exactly 1. -/
theorem percent_rows_normalized (rows : List SummitRow)
    (choice : String → Fin 6) (lbl : String × Bool)
    (hl : lbl ∈ orderedIndex choice rows) :
    1 ≤ rowDivisor choice rows lbl ∧
    ((percentRow choice rows lbl).filterMap id).sum = 1 := by
  obtain ⟨r, tag⟩ := lbl
  unfold orderedIndex at hl
  rw [List.mem_flatMap] at hl
  obtain ⟨r0, _, hmem⟩ := hl
  rw [List.mem_append] at hmem
  rcases hmem with h | h
  · by_cases hin : r0 ∈ origLabels choice rows
    · rw [if_pos hin] at h
      have hpair := List.mem_singleton.mp h
      rw [Prod.mk.injEq] at hpair
      obtain ⟨rfl, rfl⟩ := hpair
      exact orig_row_normalized choice rows _ hin
    · rw [if_neg hin] at h
      exact absurd h (List.not_mem_nil _)
  · by_cases hin : r0 ∈ newLabels choice rows
    · rw [if_pos hin] at h
      have hpair := List.mem_singleton.mp h
      rw [Prod.mk.injEq] at hpair
      obtain ⟨rfl, rfl⟩ := hpair
      exact new_row_normalized choice rows _ hin
    · rw [if_neg hin] at h
      exact absurd h (List.not_mem_nil _)

/-- Witness for C9: on the sample rows the label of region SS on the
original side is in the ordered index and its divisor is positive. -/
theorem percent_rows_normalized_witness :
    1 ≤ rowDivisor (fun _ => (0 : Fin 6)) sampleRows ("SS", true) :=
  (percent_rows_normalized sampleRows (fun _ => (0 : Fin 6)) ("SS", true)
    (by decide)).1

/-- Witness for C7: under the constant unit-interval colormap, the two
sample rows share the area A1 and therefore the same marker colour. -/
theorem marker_colors_consistent_and_valid_witness :
    rowColor (fun _ _ => ((0 : ℚ), (0 : ℚ), (0 : ℚ))) ColourBy.area
      (fun _ => (0 : Fin 6)) sampleRows sampleRow =
    rowColor (fun _ _ => ((0 : ℚ), (0 : ℚ), (0 : ℚ))) ColourBy.area
      (fun _ => (0 : Fin 6)) sampleRows sampleRow2 :=
  (marker_colors_consistent_and_valid (fun _ _ => ((0 : ℚ), (0 : ℚ), (0 : ℚ)))
    (fun _ _ =>
      (by decide : (0 : ℚ) ≤ 0 ∧ (0 : ℚ) ≤ 1 ∧ (0 : ℚ) ≤ 0 ∧ (0 : ℚ) ≤ 1 ∧
        (0 : ℚ) ≤ 0 ∧ (0 : ℚ) ≤ 1))).1 ColourBy.area (fun _ => (0 : Fin 6)) sampleRows
    sampleRow sampleRow2 (by decide) (by decide)

end SotaGm
